import Mathlib

/-!
Verification of the APGD (Accelerated Projected Gradient Descent) cone-complementarity
solver of the Chrono multibody engine (class ChIterativeAPGD, ChSolverAPGD.h).

The header declares the solver state (gamma, gammaNew, y, yNew, g, r, tmp, gamma_hat,
residual, nc), the constructor defaults, Solve, ShurBvectorCompute, Res4 and the two
dump accessors.  The bodies of Solve / ShurBvectorCompute / Res4 and of the cone
projection live outside the provided sources, so those parts are modelled from the
specification (sections 4.1 to 4.4 and 7); the constructor defaults and the dump
accessors are translated directly from the header.
-/

namespace Chrono

/-! ### Dense vector arithmetic (ChMatrixDynamic column vectors as lists) -/

/-- Componentwise vector addition. -/
def vadd (a b : List ℝ) : List ℝ := List.zipWith (fun x y => x + y) a b

/-- Componentwise vector subtraction. -/
def vsub (a b : List ℝ) : List ℝ := List.zipWith (fun x y => x - y) a b

/-- Componentwise vector negation. -/
def vneg (a : List ℝ) : List ℝ := a.map (fun x => -x)

/-- Scalar multiple of a vector. -/
def smul (c : ℝ) (a : List ℝ) : List ℝ := a.map (fun x => c * x)

/-- Euclidean inner product of two vectors. -/
def dot (a b : List ℝ) : ℝ := (List.zipWith (fun x y => x * y) a b).sum

/-! ### Constraint groups and the cone projector -/

/-- Kind of one constraint group of the descriptor: a bilateral joint row, a
unilateral (normal) row, or a friction triple carrying its friction coefficient. -/
inductive GKind where
  | bilateral
  | unilateral
  | friction (mu : ℝ)

/-- Number of scalar components a constraint group occupies (spec section 3). -/
def slots : GKind → ℕ
  | GKind.bilateral => 1
  | GKind.unilateral => 1
  | GKind.friction _ => 3

/-- One constraint group of an impulse vector together with its components:
bilateral and unilateral groups hold one scalar, friction groups hold the
normal and the two tangential components plus the friction coefficient. -/
inductive CGroup where
  | bilateral (v : ℝ)
  | unilateral (v : ℝ)
  | friction (mu n t1 t2 : ℝ)

/-- Modelled from the spec: projection of one friction triple (section 4.3) — if the
tangential magnitude is within the cone leave the triple unchanged, else if the
normal is negative or the point lies in the polar cone project to the origin, else
rescale the tangential part to the disk of radius mu times the normal.  (The C++
body of the projection is not among the provided sources.) -/
noncomputable def projFriction (mu n t1 t2 : ℝ) : ℝ × ℝ × ℝ :=
  if Real.sqrt (t1 ^ 2 + t2 ^ 2) ≤ mu * n then (n, t1, t2)
  else if n < 0 ∨ mu * Real.sqrt (t1 ^ 2 + t2 ^ 2) ≤ -n then (0, 0, 0)
  else (n, t1 * (mu * n / Real.sqrt (t1 ^ 2 + t2 ^ 2)),
        t2 * (mu * n / Real.sqrt (t1 ^ 2 + t2 ^ 2)))

/-- Modelled from the spec: per-group action of the cone projector (section 4.3) —
identity on bilateral rows, clamp to nonnegative on unilateral rows, friction-cone
projection on friction triples. -/
noncomputable def projectGroup : CGroup → CGroup
  | CGroup.bilateral v => CGroup.bilateral v
  | CGroup.unilateral v => CGroup.unilateral (max v 0)
  | CGroup.friction mu n t1 t2 =>
      CGroup.friction mu (projFriction mu n t1 t2).1
        (projFriction mu n t1 t2).2.1 (projFriction mu n t1 t2).2.2

/-- Modelled from the spec: the cone projector applied groupwise to a whole impulse
vector; per-contact, with no cross-contact coupling (section 4.3). -/
noncomputable def Project (x : List CGroup) : List CGroup := x.map projectGroup

/-- Feasibility of one projected group: unilateral rows are nonnegative and friction
triples lie inside their cone; bilateral rows are unconstrained. -/
def feasibleGroup : CGroup → Prop
  | CGroup.bilateral _ => True
  | CGroup.unilateral v => 0 ≤ v
  | CGroup.friction mu n t1 t2 => Real.sqrt (t1 ^ 2 + t2 ^ 2) ≤ mu * n

/-- A group has a nonnegative friction coefficient (trivially true for the kinds
that carry no coefficient). -/
def groupMuNonneg : CGroup → Prop
  | CGroup.friction mu _ _ _ => 0 ≤ mu
  | _ => True

/-- Split a flat impulse vector into constraint groups following the descriptor's
group metadata (spec sections 3 and 6). -/
def toGroups : List GKind → List ℝ → List CGroup
  | GKind.bilateral :: ks, v :: xs => CGroup.bilateral v :: toGroups ks xs
  | GKind.unilateral :: ks, v :: xs => CGroup.unilateral v :: toGroups ks xs
  | GKind.friction mu :: ks, n :: t1 :: t2 :: xs =>
      CGroup.friction mu n t1 t2 :: toGroups ks xs
  | _, _ => []

/-- Concatenate constraint groups back into a flat vector. -/
def flatten : List CGroup → List ℝ
  | [] => []
  | CGroup.bilateral v :: gs => v :: flatten gs
  | CGroup.unilateral v :: gs => v :: flatten gs
  | CGroup.friction _ n t1 t2 :: gs => n :: t1 :: t2 :: flatten gs

/-- Modelled from the spec: the cone projector acting on a flat solver vector, going
through the descriptor's group metadata (section 4.3). -/
noncomputable def projVec (kinds : List GKind) (x : List ℝ) : List ℝ :=
  flatten (Project (toGroups kinds x))

/-! ### Descriptor, configuration and solver state -/

/-- The only fatal condition of Solve (spec section 7). -/
inductive ConfigError where
  | dimensionMismatch

/-- Modelled from the spec: the slice of the ChSystemDescriptor contract consumed by
the solver (section 6) — constraint-group metadata, the vector J * Minv * f_free, the
bias vector b, the Schur-complement operator N, the residual evaluator Res4 (an
abstract nonnegative convergence measure, section 4.4, whose C++ body is not among
the provided sources), an initial Lipschitz estimate (section 9 leaves its heuristic
unspecified), and the constraint reactions the solution is written back into. -/
structure ChSystemDescriptor where
  kinds : List GKind
  jacMinvF : List ℝ
  bVec : List ℝ
  applyN : List ℝ → List ℝ
  res4 : List ℝ → ℝ
  res4_nonneg : ∀ v, 0 ≤ res4 v
  Lest : ℝ
  reactions : List ℝ

/-- Total number of scalar constraint components of the descriptor. -/
def ncOf (d : ChSystemDescriptor) : ℕ := (d.kinds.map slots).sum

/-- Modelled from the spec: dimensional consistency of the descriptor — the
free-velocity response and the bias must both match the constraint dimension
(section 7, ConfigurationError). -/
def consistentDims (d : ChSystemDescriptor) : Prop :=
  d.jacMinvF.length = ncOf d ∧ d.bVec.length = ncOf d

instance (d : ChSystemDescriptor) : Decidable (consistentDims d) := by
  unfold consistentDims
  infer_instance

/-- Modelled from the spec: the Schur right-hand-side builder (section 4.2),
r = -(J * Minv * f_free + b); declared as ShurBvectorCompute in the header, body
not among the provided sources. -/
def ShurBvectorCompute (d : ChSystemDescriptor) : List ℝ :=
  vneg (vadd d.jacMinvF d.bVec)

/-- Commit a solution vector into the descriptor's constraint reactions
(WriteSolution of the descriptor contract, spec section 6). -/
def writeSolution (d : ChSystemDescriptor) (v : List ℝ) : ChSystemDescriptor :=
  { d with reactions := v }

/-- Configuration surface of the solver (spec section 6); omega is the extra
relaxation argument the header's constructor forwards to the base class, and
maxBacktrack is the bound on step-halvings within one iteration that section 7
requires ("bounded number of halvings", exact bound unspecified). -/
structure SolverConfig where
  max_iterations : ℕ
  warm_start : Bool
  tolerance : ℝ
  omega : ℝ
  maxBacktrack : ℕ

/-- Constructor of ChIterativeAPGD as declared in the header: it forwards
max iterations, warm start, tolerance and omega = 0.0001 to the base solver. -/
def ChIterativeAPGD (mmax_iters : ℕ) (mwarm_start : Bool) (mtolerance : ℝ) :
    SolverConfig :=
  { max_iterations := mmax_iters
    warm_start := mwarm_start
    tolerance := mtolerance
    omega := 0.0001
    maxBacktrack := 100 }

/-- The solver built with no arguments: the header's default arguments are
1000 iterations, no warm start, tolerance 0.0. -/
def apgdDefault : SolverConfig := ChIterativeAPGD 1000 false 0

/-- Mutable solver state across one iteration of Solve, mirroring the data members
declared in the header: current iterate gamma, momentum point y, Nesterov
coefficient theta, step size t (the reciprocal Lipschitz estimate), the fixed Schur
right-hand side r, the best-ever iterate gamma_hat and the best recorded
residual. -/
structure SState where
  gamma : List ℝ
  y : List ℝ
  theta : ℝ
  t : ℝ
  r : List ℝ
  gamma_hat : List ℝ
  residual : ℝ

/-! ### The APGD engine, modelled from spec section 4.1 -/

/-- Modelled from the spec: the dual quadratic objective of the CCP whose gradient
is N(x) - r (section 4.1a). -/
noncomputable def dualObj (d : ChSystemDescriptor) (r x : List ℝ) : ℝ :=
  1 / 2 * dot x (d.applyN x) - dot r x

/-- Modelled from the spec: failure of the sufficient-decrease (projected-gradient
descent) certificate for candidate gn at step size t (section 4.1c). -/
noncomputable def suffDecFails (d : ChSystemDescriptor) (r y g gn : List ℝ) (t : ℝ) :
    Prop :=
  dualObj d r y + dot g (vsub gn y) + 1 / (2 * t) * dot (vsub gn y) (vsub gn y) <
    dualObj d r gn

noncomputable instance (d : ChSystemDescriptor) (r y g gn : List ℝ) (t : ℝ) :
    Decidable (suffDecFails d r y g gn t) := by
  unfold suffDecFails
  infer_instance

/-- Modelled from the spec: the backtracking search of one iteration (sections 4.1c
and 7) — while the sufficient-decrease condition fails, halve the step size and
recompute the projected candidate from the same momentum point y and the same
gradient g; when the bounded budget of halvings is exhausted, freeze the step size
and proceed with the candidate it yields. -/
noncomputable def backtrack (d : ChSystemDescriptor) (r y g : List ℝ) :
    ℕ → ℝ → ℝ × List ℝ
  | 0, t => (t, projVec d.kinds (vsub y (smul t g)))
  | Nat.succ m, t =>
      if suffDecFails d r y g (projVec d.kinds (vsub y (smul t g))) t then
        backtrack d r y g m (t / 2)
      else (t, projVec d.kinds (vsub y (smul t g)))

/-- Modelled from the spec: gradient of the dual objective at the momentum point,
g = N(y) - r (section 4.1a). -/
noncomputable def gradAt (d : ChSystemDescriptor) (s : SState) : List ℝ :=
  vsub (d.applyN s.y) s.r

/-- Modelled from the spec: step size and projected candidate produced by the
backtracking search of one iteration, started from the iteration's momentum point,
gradient and current step size (section 4.1b-c). -/
noncomputable def stepBT (d : ChSystemDescriptor) (bt : ℕ) (s : SState) :
    ℝ × List ℝ :=
  backtrack d s.r s.y (gradAt d s) bt s.t

/-- Modelled from the spec: the positive root of the Nesterov momentum recursion
thetaNew^2 = (1 - thetaNew) * theta^2 (section 4.1d). -/
noncomputable def thetaNext (theta : ℝ) : ℝ :=
  (-(theta ^ 2) + theta * Real.sqrt (theta ^ 2 + 4)) / 2

/-- Modelled from the spec: the momentum weight
beta = theta * (1 - theta) / (theta^2 + thetaNew) (section 4.1d). -/
noncomputable def betaOf (s : SState) : ℝ :=
  s.theta * (1 - s.theta) / (s.theta ^ 2 + thetaNext s.theta)

/-- Modelled from the spec: one execution of the main loop body of Solve (section
4.1, steps a to j) — gradient at the momentum point, backtracking projected step,
Nesterov update, best-ever safeguard on gamma_hat, and the adaptive restart that
resets theta and the momentum point when the step was not a descent direction. -/
noncomputable def step (d : ChSystemDescriptor) (bt : ℕ) (s : SState) : SState :=
  { gamma := (stepBT d bt s).2
    y :=
      if 0 ≤ dot (gradAt d s) (vsub (stepBT d bt s).2 s.gamma) then (stepBT d bt s).2
      else vadd (stepBT d bt s).2 (smul (betaOf s) (vsub (stepBT d bt s).2 s.gamma))
    theta :=
      if 0 ≤ dot (gradAt d s) (vsub (stepBT d bt s).2 s.gamma) then 1
      else thetaNext s.theta
    t := (stepBT d bt s).1
    r := s.r
    gamma_hat :=
      if d.res4 (stepBT d bt s).2 < s.residual then (stepBT d bt s).2 else s.gamma_hat
    residual :=
      if d.res4 (stepBT d bt s).2 < s.residual then d.res4 (stepBT d bt s).2
      else s.residual }

/-- Modelled from the spec: the iterative loop of Solve (section 4.1, item 3) —
repeat the loop body up to the iteration budget, stopping early exactly when the
best recorded residual falls to the tolerance; returns the final state together
with the number of loop-body executions performed. -/
noncomputable def loopAPGD (d : ChSystemDescriptor) (tol : ℝ) (bt : ℕ) :
    ℕ → SState → SState × ℕ
  | 0, s => (s, 0)
  | Nat.succ n, s =>
      if (step d bt s).residual ≤ tol then (step d bt s, 1)
      else ((loopAPGD d tol bt n (step d bt s)).1,
            (loopAPGD d tol bt n (step d bt s)).2 + 1)

/-- Modelled from the spec: initial solver state (section 4.1, items 1 and 2, and
section 3 lifecycle) — gamma, y and gamma_hat start at zero or, under warm start, at
the descriptor's previous reactions; theta starts at 1, the step size at the
reciprocal of the initial Lipschitz estimate, r is built once by
ShurBvectorCompute, and the best recorded residual starts at a huge sentinel. -/
noncomputable def initState (cfg : SolverConfig) (d : ChSystemDescriptor) : SState :=
  { gamma := if cfg.warm_start then d.reactions else List.replicate (ncOf d) 0
    y := if cfg.warm_start then d.reactions else List.replicate (ncOf d) 0
    theta := 1
    t := 1 / d.Lest
    r := ShurBvectorCompute d
    gamma_hat := if cfg.warm_start then d.reactions else List.replicate (ncOf d) 0
    residual := 10 ^ 30 }

/-- Modelled from the spec: the full iteration of one Solve call — the loop run for
at most max_iterations loop-body executions from the initial state. -/
noncomputable def solveLoop (cfg : SolverConfig) (d : ChSystemDescriptor) :
    SState × ℕ :=
  loopAPGD d cfg.tolerance cfg.maxBacktrack cfg.max_iterations (initState cfg d)

/-- Modelled from the spec: Solve (section 4.1) — reject a dimensionally
inconsistent descriptor before any iteration runs (section 7); return residual 0.0
immediately with no side effects when the constraint dimension is zero; otherwise
run the loop and, whether or not the tolerance was reached, write the best-ever
iterate gamma_hat back into the descriptor's reactions and return the best recorded
residual. -/
noncomputable def Solve (cfg : SolverConfig) (d : ChSystemDescriptor) :
    Except ConfigError (ℝ × ChSystemDescriptor) :=
  if consistentDims d then
    if ncOf d = 0 then Except.ok (0, d)
    else
      Except.ok ((solveLoop cfg d).1.residual,
        writeSolution d (solveLoop cfg d).1.gamma_hat)
  else Except.error ConfigError.dimensionMismatch

/-! ### Dump accessors, translated directly from the header -/

/-- The push_back loop shared by the two dump accessors: append every entry of v to
the end of temp, in row order. -/
def pushAll (v temp : List ℝ) : List ℝ := v.foldl (fun acc x => acc ++ [x]) temp

/-- Dump_Rhs of the header: push every row of r onto the end of temp. -/
def Dump_Rhs (s : SState) (temp : List ℝ) : List ℝ := pushAll s.r temp

/-- Dump_Lambda of the header: push every row of gamma_hat onto the end of temp. -/
def Dump_Lambda (s : SState) (temp : List ℝ) : List ℝ := pushAll s.gamma_hat temp

/-! ### Concrete inputs used by the witnesses -/

/-- A dimensionally consistent descriptor with no constraints. -/
def d0 : ChSystemDescriptor :=
  { kinds := []
    jacMinvF := []
    bVec := []
    applyN := fun v => v
    res4 := fun _ => 0
    res4_nonneg := fun _ => le_refl 0
    Lest := 1
    reactions := [] }

/-- A descriptor whose free-velocity response size disagrees with its constraint
dimension. -/
def d1 : ChSystemDescriptor := { d0 with jacMinvF := [1] }

/-- A concrete grouped impulse vector with one group of each kind. -/
def gx0 : List CGroup :=
  [CGroup.bilateral 5, CGroup.unilateral (-3), CGroup.friction 1 2 3 4]

/-! ### Helper lemmas about the cone projector -/

/-- A triple already inside the friction cone is left unchanged. -/
theorem projFriction_fix (mu n t1 t2 : ℝ)
    (h : Real.sqrt (t1 ^ 2 + t2 ^ 2) ≤ mu * n) :
    projFriction mu n t1 t2 = (n, t1, t2) := by
  unfold projFriction
  rw [if_pos h]

/-- Feasibility of the friction projection: for a nonnegative friction coefficient
the projected triple lies inside the cone. -/
theorem projFriction_feasible (mu n t1 t2 : ℝ) (hmu : 0 ≤ mu) :
    Real.sqrt ((projFriction mu n t1 t2).2.1 ^ 2 + (projFriction mu n t1 t2).2.2 ^ 2)
      ≤ mu * (projFriction mu n t1 t2).1 := by
  unfold projFriction
  split_ifs with h1 h2
  · exact h1
  · simp
  · push_neg at h1 h2
    have hn : 0 ≤ n := h2.1
    have hmun : 0 ≤ mu * n := mul_nonneg hmu hn
    have htn : 0 < Real.sqrt (t1 ^ 2 + t2 ^ 2) := lt_of_le_of_lt hmun h1
    have key :
        (t1 * (mu * n / Real.sqrt (t1 ^ 2 + t2 ^ 2))) ^ 2 +
            (t2 * (mu * n / Real.sqrt (t1 ^ 2 + t2 ^ 2))) ^ 2 =
          (t1 ^ 2 + t2 ^ 2) * (mu * n / Real.sqrt (t1 ^ 2 + t2 ^ 2)) ^ 2 := by
      ring
    rw [key, Real.sqrt_mul (by positivity), Real.sqrt_sq_eq_abs,
      abs_of_nonneg (div_nonneg hmun htn.le), mul_comm,
      div_mul_cancel₀ _ (ne_of_gt htn)]

/-- Per-group feasibility of the cone projector. -/
theorem projectGroup_feasible (g : CGroup) (h : groupMuNonneg g) :
    feasibleGroup (projectGroup g) := by
  cases g with
  | bilateral v => trivial
  | unilateral v => exact le_max_right v 0
  | friction mu n t1 t2 => exact projFriction_feasible mu n t1 t2 h

/-- Per-group idempotence of the cone projector for a nonnegative friction
coefficient. -/
theorem projectGroup_idem (g : CGroup) (h : groupMuNonneg g) :
    projectGroup (projectGroup g) = projectGroup g := by
  cases g with
  | bilateral v => rfl
  | unilateral v =>
      show CGroup.unilateral (max (max v 0) 0) = CGroup.unilateral (max v 0)
      rw [max_eq_left (le_max_right v 0)]
  | friction mu n t1 t2 =>
      have hq :
          projFriction mu (projFriction mu n t1 t2).1 (projFriction mu n t1 t2).2.1
              (projFriction mu n t1 t2).2.2 =
            ((projFriction mu n t1 t2).1,
              (projFriction mu n t1 t2).2.1, (projFriction mu n t1 t2).2.2) :=
        projFriction_fix _ _ _ _ (projFriction_feasible mu n t1 t2 h)
      simp [projectGroup, hq]

/-! ### Claims about the cone projector -/

/-- C2: every output of Project is feasible — each unilateral component is
nonnegative and every friction triple lies inside its cone — and the bilateral
components are passed through unchanged. -/
theorem cone_projection_feasible (x : List CGroup)
    (hmu : ∀ g ∈ x, groupMuNonneg g) :
    (∀ g ∈ Project x, feasibleGroup g) ∧
      ∀ (i : ℕ) (v : ℝ), x[i]? = some (CGroup.bilateral v) →
        (Project x)[i]? = some (CGroup.bilateral v) := by
  constructor
  · intro g hg
    rcases List.mem_map.mp hg with ⟨a, ha, rfl⟩
    exact projectGroup_feasible a (hmu a ha)
  · intro i v hi
    unfold Project
    rw [List.getElem?_map, hi]
    rfl

/-- C2 witness: the feasibility theorem applied to a concrete vector with one group
of each kind. -/
theorem cone_projection_feasible_witness :
    (∀ g ∈ Project gx0, feasibleGroup g) ∧
      ∀ (i : ℕ) (v : ℝ), gx0[i]? = some (CGroup.bilateral v) →
        (Project gx0)[i]? = some (CGroup.bilateral v) :=
  cone_projection_feasible gx0 (by
    intro g hg
    simp only [gx0, List.mem_cons, List.not_mem_nil, or_false] at hg
    rcases hg with rfl | rfl | rfl
    · trivial
    · trivial
    · show (0 : ℝ) ≤ 1
      norm_num)

/-- C3 counterexample: with a negative friction coefficient the spec's projection is
not idempotent — the rescale branch produces a point the polar-cone branch then
sends to the origin. -/
theorem cone_projection_idem_counterexample :
    Project (Project [CGroup.friction (-1) 2 1 0]) ≠
      Project [CGroup.friction (-1) 2 1 0] := by
  have e1 : ((1 : ℝ) ^ 2 + 0 ^ 2) = 1 := by norm_num
  have h1 : projFriction (-1) 2 1 0 = (2, -2, 0) := by
    unfold projFriction
    rw [e1, Real.sqrt_one]
    norm_num
  have e2 : (((-2) : ℝ) ^ 2 + 0 ^ 2) = 2 ^ 2 := by norm_num
  have h2 : projFriction (-1) 2 (-2) 0 = (0, 0, 0) := by
    unfold projFriction
    rw [e2, Real.sqrt_sq (by norm_num : (0 : ℝ) ≤ 2)]
    norm_num
  intro hEq
  simp only [Project, List.map, projectGroup, h1, h2, List.cons.injEq,
    CGroup.friction.injEq, and_true] at hEq
  norm_num at hEq

/-- C3 amended: the cone projector is idempotent on every vector all of whose
friction coefficients are nonnegative. -/
theorem cone_projection_idem (x : List CGroup)
    (hmu : ∀ g ∈ x, groupMuNonneg g) :
    Project (Project x) = Project x := by
  unfold Project
  rw [List.map_map]
  apply List.map_congr_left
  intro g hg
  exact projectGroup_idem g (hmu g hg)

/-- C3 witness: idempotence at a concrete vector with one group of each kind. -/
theorem cone_projection_idem_witness : Project (Project gx0) = Project gx0 :=
  cone_projection_idem gx0 (by
    intro g hg
    simp only [gx0, List.mem_cons, List.not_mem_nil, or_false] at hg
    rcases hg with rfl | rfl | rfl
    · trivial
    · trivial
    · show (0 : ℝ) ≤ 1
      norm_num)

/-! ### Helper lemmas about the engine -/

/-- One loop body never increases the best recorded residual. -/
theorem step_residual_le (d : ChSystemDescriptor) (bt : ℕ) (s : SState) :
    (step d bt s).residual ≤ s.residual := by
  show (if d.res4 (stepBT d bt s).2 < s.residual then d.res4 (stepBT d bt s).2
        else s.residual) ≤ s.residual
  split_ifs with h
  · exact le_of_lt h
  · exact le_rfl

/-- The loop never increases the best recorded residual. -/
theorem loop_residual_le (d : ChSystemDescriptor) (tol : ℝ) (bt : ℕ) :
    ∀ (n : ℕ) (s : SState), (loopAPGD d tol bt n s).1.residual ≤ s.residual := by
  intro n
  induction n with
  | zero => intro s; exact le_rfl
  | succ m ih =>
      intro s
      rw [loopAPGD]
      split_ifs with h
      · exact step_residual_le d bt s
      · exact le_trans (ih (step d bt s)) (step_residual_le d bt s)

/-- The loop preserves the Schur right-hand side stored in the state. -/
theorem loop_r_eq (d : ChSystemDescriptor) (tol : ℝ) (bt : ℕ) :
    ∀ (n : ℕ) (s : SState), (loopAPGD d tol bt n s).1.r = s.r := by
  intro n
  induction n with
  | zero => intro s; rfl
  | succ m ih =>
      intro s
      rw [loopAPGD]
      split_ifs with h
      · rfl
      · exact (ih (step d bt s)).trans rfl

/-- The loop performs at most its budget of loop-body executions, and an early exit
happens exactly at a residual within tolerance. -/
theorem loop_iter_bound (d : ChSystemDescriptor) (tol : ℝ) (bt : ℕ) :
    ∀ (n : ℕ) (s : SState),
      (loopAPGD d tol bt n s).2 ≤ n ∧
        ((loopAPGD d tol bt n s).2 = n ∨ (loopAPGD d tol bt n s).1.residual ≤ tol) := by
  intro n
  induction n with
  | zero => intro s; exact ⟨le_rfl, Or.inl rfl⟩
  | succ m ih =>
      intro s
      rw [loopAPGD]
      split_ifs with h
      · exact ⟨Nat.succ_le_succ (Nat.zero_le m), Or.inr h⟩
      · rcases ih (step d bt s) with ⟨h1, h2⟩
        refine ⟨Nat.succ_le_succ h1, ?_⟩
        rcases h2 with h2 | h2
        · exact Or.inl (by rw [h2])
        · exact Or.inr h2

/-! ### Claims about the engine -/

/-- C1: the residual recorded for the best-ever iterate gamma_hat is monotone
non-increasing across executions of the loop body (and hence across the whole
loop); gamma_hat is replaced only when the freshly evaluated residual strictly
improves on the best recorded so far, and then the recorded residual is exactly the
residual of the new gamma_hat. -/
theorem apgd_gamma_hat_monotone (d : ChSystemDescriptor) (bt : ℕ) (tol : ℝ)
    (n : ℕ) (s : SState) :
    (step d bt s).residual ≤ s.residual ∧
      (((step d bt s).gamma_hat = s.gamma_hat ∧ (step d bt s).residual = s.residual) ∨
        ((step d bt s).residual < s.residual ∧
          (step d bt s).residual = d.res4 ((step d bt s).gamma_hat))) ∧
      (loopAPGD d tol bt n s).1.residual ≤ s.residual := by
  refine ⟨step_residual_le d bt s, ?_, loop_residual_le d tol bt n s⟩
  by_cases h : d.res4 (stepBT d bt s).2 < s.residual
  · right
    constructor
    · simp [step, h]
    · simp [step, h]
  · left
    constructor
    · simp [step, h]
    · simp [step, h]

/-- C4: within one iteration's backtracking search the step size is only ever
halved — the result is the incoming step size divided by a power of two, within the
bounded halving budget — and the returned candidate is recomputed by projecting a
gradient step taken from the same momentum point y and the same gradient g the
search was started with; step passes exactly the iteration's momentum point,
gradient and step size into the search. -/
theorem backtracking_only_halves (d : ChSystemDescriptor) (r y g : List ℝ)
    (fuel : ℕ) (t : ℝ) (bt : ℕ) (s : SState) :
    (∃ k : ℕ, k ≤ fuel ∧ (backtrack d r y g fuel t).1 = t / 2 ^ k ∧
        (backtrack d r y g fuel t).2 =
          projVec d.kinds (vsub y (smul ((backtrack d r y g fuel t).1) g))) ∧
      (step d bt s).gamma = (backtrack d s.r s.y (gradAt d s) bt s.t).2 ∧
      (step d bt s).t = (backtrack d s.r s.y (gradAt d s) bt s.t).1 := by
  refine ⟨?_, rfl, rfl⟩
  induction fuel generalizing t with
  | zero =>
      refine ⟨0, le_rfl, by simp [backtrack], by simp [backtrack]⟩
  | succ m ih =>
      simp only [backtrack]
      split_ifs with h
      · rcases ih (t / 2) with ⟨k, hk, h1, h2⟩
        refine ⟨k + 1, Nat.succ_le_succ hk, ?_, ?_⟩
        · rw [h1, div_div, pow_succ, mul_comm]
        · exact h2
      · exact ⟨0, Nat.zero_le (m + 1), by simp, by simp⟩

/-- C5: Solve is total on dimensionally consistent descriptors — it never reports
an error on non-convergence; on a nonzero constraint dimension it returns the best
recorded residual of the loop's final state and the descriptor with the best-ever
iterate gamma_hat committed into the constraint reactions; the only error is the
dimension mismatch, reported instead of running any iteration and leaving no
partial state. -/
theorem solve_error_handling (cfg : SolverConfig) (d : ChSystemDescriptor) :
    (consistentDims d → ∃ out, Solve cfg d = Except.ok out) ∧
      (consistentDims d → 0 < ncOf d →
        Solve cfg d =
          Except.ok ((solveLoop cfg d).1.residual,
            writeSolution d (solveLoop cfg d).1.gamma_hat)) ∧
      (¬consistentDims d → Solve cfg d = Except.error ConfigError.dimensionMismatch) := by
  refine ⟨?_, ?_, ?_⟩
  · intro h
    unfold Solve
    rw [if_pos h]
    by_cases h0 : ncOf d = 0
    · rw [if_pos h0]
      exact ⟨_, rfl⟩
    · rw [if_neg h0]
      exact ⟨_, rfl⟩
  · intro h h0
    unfold Solve
    rw [if_pos h, if_neg (Nat.pos_iff_ne_zero.mp h0)]
  · intro h
    unfold Solve
    rw [if_neg h]

/-- C5 witness: a consistent descriptor yields a successful result, and a
descriptor whose free-velocity response size disagrees with its constraint
dimension is rejected with the dimension-mismatch error. -/
theorem solve_error_handling_witness :
    (∃ out, Solve apgdDefault d0 = Except.ok out) ∧
      Solve apgdDefault d1 = Except.error ConfigError.dimensionMismatch :=
  ⟨(solve_error_handling apgdDefault d0).1
      (by constructor <;> simp [d0, consistentDims, ncOf, slots]),
    (solve_error_handling apgdDefault d1).2.2
      (by simp [d1, d0, consistentDims, ncOf, slots])⟩

/-- C6: on a consistent descriptor with zero constraint dimension, Solve returns
residual 0.0 immediately and hands back the descriptor unmodified. -/
theorem solve_trivial_nc_zero (cfg : SolverConfig) (d : ChSystemDescriptor)
    (h : consistentDims d) (h0 : ncOf d = 0) :
    Solve cfg d = Except.ok (0, d) := by
  unfold Solve
  rw [if_pos h, if_pos h0]

/-- C6 witness: the trivial-success theorem applied to the concrete empty
descriptor. -/
theorem solve_trivial_nc_zero_witness : Solve apgdDefault d0 = Except.ok (0, d0) :=
  solve_trivial_nc_zero apgdDefault d0
    (by constructor <;> simp [d0, consistentDims, ncOf, slots])
    (by simp [d0, ncOf, slots])

/-- C7: the Schur right-hand side r is built exactly once by ShurBvectorCompute
when the initial state is formed, and is never mutated afterwards — one loop body
preserves it, and after any number of loop iterations the state still carries the
value computed before the loop started. -/
theorem schur_r_immutable (cfg : SolverConfig) (d : ChSystemDescriptor) (tol : ℝ)
    (bt n : ℕ) (s : SState) :
    (initState cfg d).r = ShurBvectorCompute d ∧
      (step d bt s).r = s.r ∧
      (loopAPGD d tol bt n s).1.r = s.r ∧
      (loopAPGD d tol bt n (initState cfg d)).1.r = ShurBvectorCompute d := by
  refine ⟨rfl, rfl, loop_r_eq d tol bt n s, ?_⟩
  exact (loop_r_eq d tol bt n (initState cfg d)).trans rfl

/-- C8: the loop always terminates within its iteration budget — in particular
Solve performs at most max_iterations loop-body executions — and the only early
exit is a best recorded residual at or below the tolerance. -/
theorem solve_bounded_iterations (cfg : SolverConfig) (d : ChSystemDescriptor)
    (n : ℕ) (s : SState) :
    (loopAPGD d cfg.tolerance cfg.maxBacktrack n s).2 ≤ n ∧
      ((loopAPGD d cfg.tolerance cfg.maxBacktrack n s).2 = n ∨
        (loopAPGD d cfg.tolerance cfg.maxBacktrack n s).1.residual ≤ cfg.tolerance) ∧
      (solveLoop cfg d).2 ≤ cfg.max_iterations := by
  refine ⟨(loop_iter_bound d cfg.tolerance cfg.maxBacktrack n s).1,
    (loop_iter_bound d cfg.tolerance cfg.maxBacktrack n s).2, ?_⟩
  exact (loop_iter_bound d cfg.tolerance cfg.maxBacktrack cfg.max_iterations
    (initState cfg d)).1

/-! ### Claims about the header-declared configuration and accessors -/

/-- C9: the solver built with no arguments has max_iterations = 1000, warm_start
off and tolerance 0.0, and with that tolerance the convergence test can only
succeed at an exactly zero residual, the residual measure being nonnegative. -/
theorem default_configuration :
    apgdDefault.max_iterations = 1000 ∧ apgdDefault.warm_start = false ∧
      apgdDefault.tolerance = 0 ∧
      ∀ res : ℝ, 0 ≤ res → (res ≤ apgdDefault.tolerance ↔ res = 0) := by
  refine ⟨rfl, rfl, rfl, ?_⟩
  intro res h
  constructor
  · intro hle
    exact le_antisymm hle h
  · intro he
    rw [he]
    exact le_rfl

/-- C9 witness: the default-configuration theorem with the convergence test
instantiated at the zero residual. -/
theorem default_configuration_witness :
    apgdDefault.max_iterations = 1000 ∧ apgdDefault.warm_start = false ∧
      apgdDefault.tolerance = 0 ∧ ((0 : ℝ) ≤ apgdDefault.tolerance ↔ (0 : ℝ) = 0) :=
  ⟨default_configuration.1, default_configuration.2.1, default_configuration.2.2.1,
    default_configuration.2.2.2 0 le_rfl⟩

/-- The push_back loop appends the dumped vector to the end of the accumulator. -/
theorem pushAll_eq (v : List ℝ) : ∀ temp : List ℝ, pushAll v temp = temp ++ v := by
  induction v with
  | nil => intro temp; simp [pushAll]
  | cons x xs ih =>
      intro temp
      show pushAll xs (temp ++ [x]) = temp ++ x :: xs
      rw [ih (temp ++ [x]), List.append_assoc, List.singleton_append]

/-- C10: the dump accessors append rather than overwrite — Dump_Rhs appends the
entries of r and Dump_Lambda the entries of gamma_hat to the end of temp in row
order, the elements already in temp are preserved unchanged, and dumping twice into
the same vector duplicates the entries. -/
theorem dump_ops_append (s : SState) (temp : List ℝ) :
    Dump_Rhs s temp = temp ++ s.r ∧
      Dump_Lambda s temp = temp ++ s.gamma_hat ∧
      (Dump_Rhs s temp).take temp.length = temp ∧
      (Dump_Lambda s temp).take temp.length = temp ∧
      Dump_Rhs s (Dump_Rhs s temp) = temp ++ s.r ++ s.r ∧
      Dump_Lambda s (Dump_Lambda s temp) = temp ++ s.gamma_hat ++ s.gamma_hat := by
  refine ⟨pushAll_eq s.r temp, pushAll_eq s.gamma_hat temp, ?_, ?_, ?_, ?_⟩
  · rw [Dump_Rhs, pushAll_eq, List.take_left]
  · rw [Dump_Lambda, pushAll_eq, List.take_left]
  · rw [Dump_Rhs, Dump_Rhs, pushAll_eq, pushAll_eq]
  · rw [Dump_Lambda, Dump_Lambda, pushAll_eq, pushAll_eq]

end Chrono
